import Mathlib

/-!
Verification of the keyword-analysis plugin
(`astrbot_plugin_Group_chat_message_analysis`).

We shallowly embed the Python code of the repository in Lean 4:

* `src/core/message_handler.py` — keyword expansion
  (`_expand_keyword_variants` and its five generators), the relevance
  matcher (`_is_semantically_related` and its strategies), the
  `difflib.SequenceMatcher`-based similarity scores, and the row-based
  Levenshtein dynamic program (`_levenshtein_distance`).
* `src/analysis/topic_analyzer.py` — session segmentation
  (`_identify_discussion_sessions`, `_analyze_session_status`) and key
  point extraction (`_extract_key_points`).

Modelling conventions:

* Python strings are modelled as `List Char` (`Str`), one entry per code
  point, matching Python indexing/length semantics.
* Python floats are modelled as exact nonnegative fractions (`PyFloat`,
  an unreduced `num / den` pair read off as a rational via
  `PyFloat.toRat`).  All floats in this code are of the form `2 m / t`,
  `k / n`, small sums thereof, compared against constants such as `0.5`,
  `0.6`, `0.8`; for the short strings manipulated here the exact values
  are never within double-precision rounding distance of the decision
  thresholds, so every Bool outcome agrees with CPython.
* `str.lower` / `str.strip` are modelled per-character via `Char.toLower`
  and `Char.isWhitespace` (exact on ASCII; Chinese characters are
  unaffected by case mapping).
* CPython `sorted`/`list.sort` are stable; a stable sort for a total
  preorder key is unique, so we model them by a stable insertion sort.
* CPython `set` iteration order is unspecified (hash-seed dependent);
  code of the form `list(set(xs))` is modelled by quantifying over an
  arbitrary enumeration of the distinct elements (`SetEnum`).
-/

/-- Python strings as lists of code points. -/
abbrev Str := List Char

/-- Model of Python `str.lower` (per-character; exact on ASCII). -/
def pyLower (s : Str) : Str := s.map Char.toLower

/-- Model of Python `str.strip` (drop leading and trailing whitespace). -/
def pyStrip (s : Str) : Str :=
  ((s.dropWhile Char.isWhitespace).reverse.dropWhile Char.isWhitespace).reverse

/-- Model of the Python substring test `needle in hay`. -/
def strContains (hay needle : Str) : Bool :=
  hay.tails.any (fun t => needle.isPrefixOf t)

/-- Model of Python `s.split(sep)` for a one-character separator. -/
def splitOnChar (sep : Char) : Str → List Str
  | [] => [[]]
  | c :: cs =>
    let r := splitOnChar sep cs
    if c = sep then [] :: r else (c :: r.headD []) :: r.tail

/-- Order-preserving removal of duplicates (first occurrence kept). -/
def dedupFirstSeen (l : List Str) : List Str :=
  l.foldl (fun acc x => if x ∈ acc then acc else acc ++ [x]) []

/-!
## The Python Levenshtein dynamic program

Embedding of `MessageHandler._levenshtein_distance`
(`src/core/message_handler.py`, lines 552-570): the classic two-row
Wagner–Fischer dynamic program, with the initial swap making `s1` the
longer string.
-/

/-- Inner loop of `_levenshtein_distance`: build `current_row` from
`previous_row` (`p0 :: p1 :: ps`), the last value `last` appended to
`current_row` so far, and the remaining characters of `s2`.
`insertions = previous_row[j+1] + 1`, `deletions = current_row[j] + 1`,
`substitutions = previous_row[j] + (c1 != c2)`. -/
def lev_row (c1 : Char) : List Nat → Nat → Str → List Nat
  | p0 :: p1 :: ps, last, c2 :: cs =>
    let v := min (p1 + 1) (min (last + 1) (p0 + (if c1 = c2 then 0 else 1)))
    v :: lev_row c1 (p1 :: ps) v cs
  | _, _, _ => []

/-- Outer loop of `_levenshtein_distance`: `for i, c1 in enumerate(s1)`,
replacing `previous_row` by `current_row = [i + 1] ++ ...`. -/
def lev_rows (s2 : Str) : Str → Nat → List Nat → List Nat
  | [], _, prev => prev
  | c1 :: rest, i, prev => lev_rows s2 rest (i + 1) ((i + 1) :: lev_row c1 prev (i + 1) s2)

/-- Body of `_levenshtein_distance` after the swap: returns `len(s1)`
when `s2` is empty, otherwise `previous_row[-1]` after all rows. -/
def lev_body (s1 s2 : Str) : Nat :=
  if s2.length = 0 then s1.length
  else (lev_rows s2 s1 0 (List.range (s2.length + 1))).getLastD 0

/-- `MessageHandler._levenshtein_distance`: swap so that `s1` is the
longer string, then run the row dynamic program. -/
def levenshtein_distance (s1 s2 : Str) : Nat :=
  if s1.length < s2.length then lev_body s2 s1 else lev_body s1 s2

/-!
### Correctness of the dynamic program

We prove `levenshtein_distance` computes Mathlib's `levenshtein` with the
unit cost structure `Levenshtein.defaultCost` (insert/delete cost 1,
substitute cost 1 for distinct characters, 0 for equal ones).
-/

/-- Unit-cost Levenshtein distance from Mathlib, used as the
specification of the "standard" edit distance. -/
def levSpec (s t : Str) : Nat := levenshtein Levenshtein.defaultCost s t

theorem levSpec_nil_left (t : Str) : levSpec [] t = t.length := by
  induction t with
  | nil => simp [levSpec]
  | cons b t ih =>
    simp only [levSpec, levenshtein_nil_cons, Levenshtein.defaultCost_insert,
      List.length_cons] at *
    omega

theorem levSpec_nil_right (s : Str) : levSpec s [] = s.length := by
  induction s with
  | nil => simp [levSpec]
  | cons a s ih =>
    simp only [levSpec, levenshtein_cons_nil, Levenshtein.defaultCost_delete,
      List.length_cons] at *
    omega

theorem levSpec_cons_cons (a : Char) (s : Str) (b : Char) (t : Str) :
    levSpec (a :: s) (b :: t) =
      min (1 + levSpec s (b :: t))
        (min (1 + levSpec (a :: s) t)
          ((if a = b then 0 else 1) + levSpec s t)) := by
  simp [levSpec, levenshtein_cons_cons]

set_option maxHeartbeats 1600000 in
/-- The Levenshtein recurrence at the right end of both strings (the form
used when the dynamic program grows prefixes). -/
theorem levSpec_append_append (n : Nat) :
    ∀ (u t : Str) (c d : Char), u.length + t.length ≤ n →
      levSpec (u ++ [c]) (t ++ [d]) =
        min (levSpec u (t ++ [d]) + 1)
          (min (levSpec (u ++ [c]) t + 1)
            (levSpec u t + (if c = d then 0 else 1))) := by
  induction n with
  | zero =>
    intro u t c d h
    cases u with
    | nil =>
      cases t with
      | nil =>
        simp only [List.nil_append, levSpec_cons_cons, levSpec_nil_left,
          levSpec_nil_right, List.length_nil, List.length_cons]
        omega
      | cons b t2 => simp at h
    | cons a u2 => simp at h
  | succ n ih =>
    intro u t c d h
    cases u with
    | nil =>
      cases t with
      | nil =>
        simp only [List.nil_append, levSpec_cons_cons, levSpec_nil_left,
          levSpec_nil_right, List.length_nil, List.length_cons]
        omega
      | cons b t2 =>
        have h1 : ([] : Str).length + t2.length ≤ n := by
          simp at h ⊢; omega
        have e1 := ih [] t2 c d h1
        simp only [List.nil_append, List.cons_append, levSpec_cons_cons,
          levSpec_nil_left, levSpec_nil_right, List.length_nil,
          List.length_cons, List.length_append] at e1 ⊢
        omega
    | cons a u2 =>
      cases t with
      | nil =>
        have h1 : u2.length + ([] : Str).length ≤ n := by
          simp at h ⊢; omega
        have e1 := ih u2 [] c d h1
        simp only [List.nil_append, List.cons_append, levSpec_cons_cons,
          levSpec_nil_left, levSpec_nil_right, List.length_nil,
          List.length_cons, List.length_append] at e1 ⊢
        omega
      | cons b t2 =>
        have h1 : u2.length + (b :: t2).length ≤ n := by
          simp at h ⊢; omega
        have h2 : (a :: u2).length + t2.length ≤ n := by
          simp at h ⊢; omega
        have h3 : u2.length + t2.length ≤ n := by
          simp at h ⊢; omega
        have e1 := ih u2 (b :: t2) c d h1
        have e2 := ih (a :: u2) t2 c d h2
        have e3 := ih u2 t2 c d h3
        simp only [List.nil_append, List.cons_append, levSpec_cons_cons,
          levSpec_nil_left, levSpec_nil_right, List.length_nil,
          List.length_cons, List.length_append] at e1 e2 e3 ⊢
        rw [e1, e2, e3]
        refine Nat.le_antisymm ?_ ?_ <;>
          · simp only [← min_add_add_right, le_min_iff, min_le_iff]
            omega

theorem levSpec_symm (n : Nat) :
    ∀ s t : Str, s.length + t.length ≤ n → levSpec s t = levSpec t s := by
  induction n with
  | zero =>
    intro s t h
    cases s with
    | nil =>
      cases t with
      | nil => rfl
      | cons b t2 => simp at h
    | cons a s2 => simp at h
  | succ n ih =>
    intro s t h
    cases s with
    | nil => rw [levSpec_nil_left, levSpec_nil_right]
    | cons a s2 =>
      cases t with
      | nil => rw [levSpec_nil_left, levSpec_nil_right]
      | cons b t2 =>
        have h1 : s2.length + (b :: t2).length ≤ n := by
          simp at h ⊢; omega
        have h2 : (a :: s2).length + t2.length ≤ n := by
          simp at h ⊢; omega
        have h3 : s2.length + t2.length ≤ n := by
          simp at h ⊢; omega
        have hc : (if a = b then (0 : Nat) else 1) = (if b = a then 0 else 1) := by
          simp [eq_comm]
        rw [levSpec_cons_cons, levSpec_cons_cons, ih s2 (b :: t2) h1,
          ih (a :: s2) t2 h2, ih s2 t2 h3, hc]
        omega

theorem lev_row_cons (c c2 : Char) (p0 : Nat) (rest : List Nat) (last : Nat)
    (cs : Str) (h : rest ≠ []) :
    lev_row c (p0 :: rest) last (c2 :: cs) =
      min (rest.headD 0 + 1) (min (last + 1) (p0 + if c = c2 then 0 else 1)) ::
        lev_row c rest
          (min (rest.headD 0 + 1) (min (last + 1) (p0 + if c = c2 then 0 else 1)))
          cs := by
  cases rest with
  | nil => simp at h
  | cons p1 ps => simp [lev_row]

theorem headD_map_range {α : Type} (n : Nat) (f : Nat → α) (d : α) :
    ((List.range (n + 1)).map f).headD d = f 0 := by
  rw [List.range_succ_eq_map]
  simp

/-- Correctness of the inner loop: from the row of distances of `u`
against the extensions of `tpre` by prefixes of `cs`, `lev_row` computes
the corresponding row for `u ++ [c]`. -/
theorem lev_row_spec (cs : Str) :
    ∀ (u tpre : Str) (c : Char),
      lev_row c
          ((List.range (cs.length + 1)).map fun j => levSpec u (tpre ++ cs.take j))
          (levSpec (u ++ [c]) tpre) cs =
        (List.range cs.length).map
          fun j => levSpec (u ++ [c]) (tpre ++ cs.take (j + 1)) := by
  induction cs with
  | nil =>
    intro u tpre c
    simp [lev_row]
  | cons c2 cs ih =>
    intro u tpre c
    have key := levSpec_append_append (u.length + tpre.length) u tpre c c2 le_rfl
    have hprev : (List.range ((c2 :: cs).length + 1)).map
          (fun j => levSpec u (tpre ++ (c2 :: cs).take j)) =
        levSpec u tpre ::
          (List.range (cs.length + 1)).map
            (fun j => levSpec u ((tpre ++ [c2]) ++ cs.take j)) := by
      rw [List.length_cons, List.range_succ_eq_map, List.map_cons, List.map_map]
      refine congrArg₂ _ (by simp) (List.map_congr_left ?_)
      intro j _
      simp [List.take_succ_cons, List.append_assoc]
    have hne : (List.range (cs.length + 1)).map
        (fun j => levSpec u ((tpre ++ [c2]) ++ cs.take j)) ≠ [] := by simp
    rw [hprev, lev_row_cons _ _ _ _ _ _ hne, headD_map_range]
    have hrhs : (List.range (c2 :: cs).length).map
          (fun j => levSpec (u ++ [c]) (tpre ++ (c2 :: cs).take (j + 1))) =
        levSpec (u ++ [c]) (tpre ++ [c2]) ::
          (List.range cs.length).map
            (fun j => levSpec (u ++ [c]) ((tpre ++ [c2]) ++ cs.take (j + 1))) := by
      rw [List.length_cons, List.range_succ_eq_map, List.map_cons, List.map_map]
      refine congrArg₂ _ (by simp) (List.map_congr_left ?_)
      intro j _
      simp [List.take_succ_cons, List.append_assoc]
    rw [hrhs]
    have hhead : min (levSpec u ((tpre ++ [c2]) ++ List.take 0 cs) + 1)
          (min (levSpec (u ++ [c]) tpre + 1)
            (levSpec u tpre + if c = c2 then 0 else 1)) =
        levSpec (u ++ [c]) (tpre ++ [c2]) := by
      rw [List.take_zero, List.append_nil]
      exact key.symm
    rw [hhead]
    exact congrArg _ (ih u (tpre ++ [c2]) c)

/-- Correctness of the outer loop of the dynamic program. -/
theorem lev_rows_spec (s2 : Str) :
    ∀ (rest u : Str),
      lev_rows s2 rest u.length
          ((List.range (s2.length + 1)).map fun j => levSpec u (s2.take j)) =
        (List.range (s2.length + 1)).map fun j => levSpec (u ++ rest) (s2.take j) := by
  intro rest
  induction rest with
  | nil =>
    intro u
    simp [lev_rows]
  | cons c1 rest ih =>
    intro u
    rw [lev_rows]
    have hrow : (u.length + 1) :: lev_row c1
          ((List.range (s2.length + 1)).map fun j => levSpec u (s2.take j))
          (u.length + 1) s2 =
        (List.range (s2.length + 1)).map fun j => levSpec (u ++ [c1]) (s2.take j) := by
      have hlast : u.length + 1 = levSpec (u ++ [c1]) [] := by
        rw [levSpec_nil_right, List.length_append, List.length_cons, List.length_nil]
      have hspec := lev_row_spec s2 u [] c1
      simp only [List.nil_append] at hspec
      conv_lhs => rw [hlast]
      rw [hspec]
      rw [List.range_succ_eq_map, List.map_cons, List.map_map]
      refine congrArg₂ _ ?_ (List.map_congr_left ?_)
      · rw [List.take_zero, levSpec_nil_right, List.length_append, List.length_cons,
          List.length_nil]
      · intro j _
        simp
    rw [hrow]
    have hlen : u.length + 1 = (u ++ [c1]).length := by
      rw [List.length_append, List.length_cons, List.length_nil]
    rw [hlen, ih (u ++ [c1])]
    refine List.map_congr_left ?_
    intro j _
    rw [List.append_assoc, List.singleton_append]

/-- The body of the Python function computes the specification distance. -/
theorem lev_body_eq (s1 s2 : Str) : lev_body s1 s2 = levSpec s1 s2 := by
  unfold lev_body
  split
  · rename_i h
    rw [List.length_eq_zero.mp h, levSpec_nil_right]
  · have hinit : (List.range (s2.length + 1)) =
        (List.range (s2.length + 1)).map (fun j => levSpec ([] : Str) (s2.take j)) := by
      refine Eq.symm ?_
      have he : ∀ j ∈ List.range (s2.length + 1), levSpec [] (s2.take j) = j := by
        intro j hj
        rw [levSpec_nil_left, List.length_take]
        have := List.mem_range.mp hj
        omega
      rw [List.map_congr_left he, List.map_id']
    rw [hinit]
    have hrows := lev_rows_spec s2 s1 []
    rw [show ([] : Str).length = 0 from rfl] at hrows
    rw [hrows, List.nil_append]
    rw [List.range_succ, List.map_append, List.map_cons, List.map_nil]
    rw [List.getLastD_eq_getLast?]
    simp [List.take_length]

/-- `MessageHandler._levenshtein_distance` computes the unit-cost
Levenshtein distance. -/
theorem levenshtein_distance_eq (s1 s2 : Str) :
    levenshtein_distance s1 s2 = levSpec s1 s2 := by
  unfold levenshtein_distance
  split
  · rw [lev_body_eq, levSpec_symm (s2.length + s1.length) s2 s1 le_rfl]
  · exact lev_body_eq s1 s2

theorem levSpec_self (s : Str) : levSpec s s = 0 := by
  induction s with
  | nil => simp [levSpec]
  | cons a s ih =>
    rw [levSpec_cons_cons, if_pos rfl, ih]
    omega

theorem levSpec_eq_zero {s t : Str} (h : levSpec s t = 0) : s = t := by
  induction s generalizing t with
  | nil =>
    rw [levSpec_nil_left] at h
    exact (List.length_eq_zero.mp h).symm
  | cons a s ih =>
    cases t with
    | nil =>
      rw [levSpec_nil_right] at h
      simp at h
    | cons b t =>
      rw [levSpec_cons_cons] at h
      have hab : a = b := by
        by_contra hne
        rw [if_neg hne] at h
        omega
      subst hab
      rw [if_pos rfl] at h
      have hst : levSpec s t = 0 := by omega
      rw [ih hst]

/-- C10: `_levenshtein_distance` computes exactly the standard unit-cost
Levenshtein distance (Mathlib's `levenshtein` with `defaultCost`); in
particular it is symmetric, is zero exactly on equal strings, and equals
the length of the other string when one string is empty. -/
theorem C10_levenshtein_distance_standard (s t : Str) :
    levenshtein_distance s t = levenshtein Levenshtein.defaultCost s t ∧
    levenshtein_distance s t = levenshtein_distance t s ∧
    (levenshtein_distance s t = 0 ↔ s = t) ∧
    levenshtein_distance [] t = t.length ∧
    levenshtein_distance s [] = s.length := by
  refine ⟨levenshtein_distance_eq s t, ?_, ⟨?_, ?_⟩, ?_, ?_⟩
  · rw [levenshtein_distance_eq, levenshtein_distance_eq,
      levSpec_symm (s.length + t.length) s t le_rfl]
  · intro h
    rw [levenshtein_distance_eq] at h
    exact levSpec_eq_zero h
  · intro h
    subst h
    rw [levenshtein_distance_eq]
    exact levSpec_self s
  · rw [levenshtein_distance_eq, levSpec_nil_left]
  · rw [levenshtein_distance_eq, levSpec_nil_right]

/-!
## Exact nonnegative fractions

All Python floats in this code are nonnegative exact fractions of small
naturals.  `Rat` arithmetic does not reduce inside the Lean kernel, so we
compute with unreduced `num / den` pairs and read values off through
`PyFloat.toRat`; comparisons are integer cross-multiplications, exact for
positive denominators (every denominator built below is positive).
-/

/-- An unreduced nonnegative fraction `num / den`. -/
structure PyFloat where
  num : Nat
  den : Nat
deriving DecidableEq

/-- The rational value of a fraction. -/
def PyFloat.toRat (x : PyFloat) : ℚ := (x.num : ℚ) / (x.den : ℚ)

/-- Fraction addition. -/
def PyFloat.add (x y : PyFloat) : PyFloat :=
  ⟨x.num * y.den + y.num * x.den, x.den * y.den⟩

/-- Fraction multiplication. -/
def PyFloat.mul (x y : PyFloat) : PyFloat := ⟨x.num * y.num, x.den * y.den⟩

/-- Comparison by cross-multiplication. -/
def PyFloat.le (x y : PyFloat) : Bool := decide (x.num * y.den ≤ y.num * x.den)

/-- Strict comparison by cross-multiplication. -/
def PyFloat.lt (x y : PyFloat) : Bool := decide (x.num * y.den < y.num * x.den)

/-- Python `max(x, y)` (returns the first argument on ties). -/
def PyFloat.max (x y : PyFloat) : PyFloat := if PyFloat.lt x y then y else x

/-- Python `min(x, y)` (returns the first argument on ties). -/
def PyFloat.min (x y : PyFloat) : PyFloat := if PyFloat.le x y then x else y

theorem PyFloat.le_iff_toRat {x y : PyFloat} (hx : 0 < x.den) (hy : 0 < y.den) :
    x.le y = true ↔ x.toRat ≤ y.toRat := by
  have hx2 : (0 : ℚ) < (x.den : ℚ) := by exact_mod_cast hx
  have hy2 : (0 : ℚ) < (y.den : ℚ) := by exact_mod_cast hy
  rw [PyFloat.le, decide_eq_true_iff, PyFloat.toRat, PyFloat.toRat,
    div_le_div_iff₀ hx2 hy2]
  exact_mod_cast Iff.rfl

theorem PyFloat.lt_iff_toRat {x y : PyFloat} (hx : 0 < x.den) (hy : 0 < y.den) :
    x.lt y = true ↔ x.toRat < y.toRat := by
  have hx2 : (0 : ℚ) < (x.den : ℚ) := by exact_mod_cast hx
  have hy2 : (0 : ℚ) < (y.den : ℚ) := by exact_mod_cast hy
  rw [PyFloat.lt, decide_eq_true_iff, PyFloat.toRat, PyFloat.toRat,
    div_lt_div_iff₀ hx2 hy2]
  exact_mod_cast Iff.rfl

/-!
## Model of `difflib.SequenceMatcher(None, a, b).ratio()`

`MessageHandler` calls `difflib.SequenceMatcher` on short strings (well
below the autojunk cutoff of 200 elements), so no element is ever junk
and `find_longest_match` degenerates to: the longest common substring of
the two ranges, ties resolved by the smallest ending index in `a`, then
in `b` (the algorithm only updates its best answer on a strictly greater
length, scanning indices in increasing order).  `ratio` is
`2 * M / (len(a) + len(b))` where `M` is the total size of the matching
blocks found by recursively splitting around the longest match, and `1.0`
when both strings are empty.
-/

/-- Length of the run of equal characters ending at positions `i` of `a`
and `j` of `b`, constrained to stay at or above `alo` / `blo` (the
`j2len` chain of `difflib.SequenceMatcher.find_longest_match`). -/
def matchLenAt (a b : Str) (alo blo : Nat) : Nat → Nat → Nat
  | 0, j => if a.getD 0 ' ' = b.getD j ' ' then 1 else 0
  | i2 + 1, 0 => if a.getD (i2 + 1) ' ' = b.getD 0 ' ' then 1 else 0
  | i2 + 1, j2 + 1 =>
    if a.getD (i2 + 1) ' ' = b.getD (j2 + 1) ' ' then
      if alo ≤ i2 ∧ blo ≤ j2 then matchLenAt a b alo blo i2 j2 + 1 else 1
    else 0

/-- `SequenceMatcher.find_longest_match` on `a[alo:ahi]` / `b[blo:bhi]`
(no junk): returns `(besti, bestj, bestsize)`, updating only on a
strictly larger match size while scanning `i` then `j` in increasing
order. -/
def find_longest_match (a b : Str) (alo ahi blo bhi : Nat) : Nat × Nat × Nat :=
  (List.range' alo (ahi - alo)).foldl
    (fun st i =>
      (List.range' blo (bhi - blo)).foldl
        (fun st j =>
          let k := matchLenAt a b alo blo i j
          if st.2.2 < k then (i + 1 - k, j + 1 - k, k) else st)
        st)
    (alo, blo, 0)

/-- Total size of the matching blocks of `SequenceMatcher`
(`get_matching_blocks`): recursively split around the longest match.  The
`fuel` argument dominates the recursion depth; every recursive call
strictly shrinks the `a`-range, so `a.length + 1` fuel always suffices. -/
def get_matching_size : Nat → Str → Str → Nat → Nat → Nat → Nat → Nat
  | 0, _, _, _, _, _, _ => 0
  | fuel + 1, a, b, alo, ahi, blo, bhi =>
    let r := find_longest_match a b alo ahi blo bhi
    if r.2.2 = 0 then 0
    else
      get_matching_size fuel a b alo r.1 blo r.2.1 + r.2.2 +
        get_matching_size fuel a b (r.1 + r.2.2) ahi (r.2.1 + r.2.2) bhi

/-- `difflib.SequenceMatcher(None, a, b).ratio()`:
`2 * M / (len(a) + len(b))`, and `1.0` when both strings are empty. -/
def sm_ratio (a b : Str) : PyFloat :=
  if a.length + b.length = 0 then ⟨1, 1⟩
  else
    ⟨2 * get_matching_size (a.length + 1) a b 0 a.length 0 b.length,
     a.length + b.length⟩

/-- `MessageHandler._calculate_text_similarity`: maximum of the best
sliding-window `SequenceMatcher` ratio and `0.8` times the character
overlap fraction. -/
def calculate_text_similarity (text keyword : Str) : PyFloat :=
  if keyword.length = 0 then ⟨0, 1⟩
  else
    let maxSim := (List.range (text.length + 1 - keyword.length)).foldl
      (fun m i => PyFloat.max m (sm_ratio ((text.drop i).take keyword.length) keyword))
      ⟨0, 1⟩
    let text_chars := text.dedup
    let keyword_chars := keyword.dedup
    let overlap := (keyword_chars.filter (fun c => c ∈ text_chars)).length
    let char_similarity : PyFloat := ⟨overlap, keyword_chars.length⟩
    PyFloat.max maxSim (char_similarity.mul ⟨4, 5⟩)

/-- `MessageHandler._calculate_relevance_score`: `100` for the keyword
itself, otherwise `ratio * 50`, plus `30` for a containment relation,
plus `20` times the character-overlap fraction, capped at `100`. -/
def calculate_relevance_score (original variant : Str) : PyFloat :=
  if original = variant then ⟨100, 1⟩
  else
    let sim := sm_ratio original variant
    let score1 := sim.mul ⟨50, 1⟩
    let score2 := score1.add
      (if strContains variant original || strContains original variant then
        (⟨30, 1⟩ : PyFloat)
      else ⟨0, 1⟩)
    let original_chars := original.dedup
    let variant_chars := variant.dedup
    let overlap := (original_chars.filter (fun c => c ∈ variant_chars)).length
    let score3 := score2.add
      (if 0 < overlap then PyFloat.mul ⟨overlap, original_chars.length⟩ ⟨20, 1⟩
       else ⟨0, 1⟩)
    PyFloat.min score3 ⟨100, 1⟩

/-!
## The relevance matcher `MessageHandler._is_semantically_related`
-/

/-- Characters matched by the regex class `[一-鿿]`. -/
def isCJKChar (c : Char) : Bool := decide (0x4e00 ≤ c.toNat ∧ c.toNat ≤ 0x9fff)

/-- Characters matched by the regex class `[a-zA-Z0-9]`. -/
def isAsciiAlnum (c : Char) : Bool := c.isAlphanum

/-- The tokenizer used by `_fuzzy_word_match`:
`re.findall(r'[一-鿿]+|[a-zA-Z0-9]+', text)` (maximal runs of
CJK characters or of ASCII alphanumerics, other characters skipped),
each token lowercased. -/
def simple_tokenize_aux : Nat → Str → List Str
  | 0, _ => []
  | _, [] => []
  | fuel + 1, c :: cs =>
    if isCJKChar c then
      pyLower (c :: cs.takeWhile isCJKChar) ::
        simple_tokenize_aux fuel (cs.dropWhile isCJKChar)
    else if isAsciiAlnum c then
      pyLower (c :: cs.takeWhile isAsciiAlnum) ::
        simple_tokenize_aux fuel (cs.dropWhile isAsciiAlnum)
    else simple_tokenize_aux fuel cs

/-- The tokenizer used by `_fuzzy_word_match` (see
`simple_tokenize_aux`); every step consumes at least one character, so
`s.length` fuel always suffices. -/
def simple_tokenize (s : Str) : List Str := simple_tokenize_aux s.length s

/-- `re.findall("[一-鿿]{2,4}", text)`: non-overlapping greedy
matches of two to four consecutive CJK characters, scanning left to
right. -/
def find_cjk_runs_aux : Nat → Str → List Str
  | 0, _ => []
  | _, [] => []
  | fuel + 1, c :: cs =>
    if isCJKChar c then
      let run := cs.takeWhile isCJKChar
      if run.isEmpty then find_cjk_runs_aux fuel cs
      else (c :: run.take 3) :: find_cjk_runs_aux fuel (cs.drop (run.take 3).length)
    else find_cjk_runs_aux fuel cs

/-- `re.findall` for the CJK name pattern (see `find_cjk_runs_aux`);
every step consumes at least one character, so `s.length` fuel always
suffices. -/
def find_cjk_runs (s : Str) : List Str := find_cjk_runs_aux s.length s

/-- `re.findall("[A-Z][a-z]+", text)`: an upper-case ASCII letter
followed by a maximal nonempty run of lower-case ASCII letters. -/
def find_upper_lower_runs_aux : Nat → Str → List Str
  | 0, _ => []
  | _, [] => []
  | fuel + 1, c :: cs =>
    if c.isUpper then
      let run := cs.takeWhile Char.isLower
      if run.isEmpty then find_upper_lower_runs_aux fuel cs
      else (c :: run) :: find_upper_lower_runs_aux fuel (cs.drop run.length)
    else find_upper_lower_runs_aux fuel cs

/-- `re.findall` for `[A-Z][a-z]+` (see `find_upper_lower_runs_aux`);
every step consumes at least one character, so `s.length` fuel always
suffices. -/
def find_upper_lower_runs (s : Str) : List Str := find_upper_lower_runs_aux s.length s

/-- Strategy 1 of `_is_semantically_related`: some variant is a
substring of the message text. -/
def direct_containment_strategy (text : Str) (variants : List Str) : Bool :=
  variants.any (fun v => strContains text v)

/-- Strategy 2 of `_is_semantically_related`: some variant reaches the
`similarity_threshold = 0.6` under `_calculate_text_similarity`. -/
def char_similarity_strategy (text : Str) (variants : List Str) : Bool :=
  variants.any (fun v => PyFloat.le ⟨3, 5⟩ (calculate_text_similarity text v))

/-- Strategy 3, `MessageHandler._fuzzy_word_match`: tokens of the text
against tokens of every variant, matching on edit distance at most 1 or
on containment between tokens of length at least 2. -/
def fuzzy_word_match (text : Str) (keyword_variants : List Str) : Bool :=
  let text_tokens := simple_tokenize text
  keyword_variants.any (fun kw =>
    (simple_tokenize kw).any (fun kt =>
      text_tokens.any (fun tt =>
        decide (levenshtein_distance kt tt ≤ 1) ||
          ((strContains tt kt || strContains kt tt) &&
            decide (2 ≤ kt.length) && decide (2 ≤ tt.length)))))

/-- The `internet_patterns` table of `_internet_pattern_match`, as
`(patterns, keywords)` pairs in source order. -/
def internet_pattern_data : List (List Str × List Str) :=
  [(["抽象", "带师", "nm", "新津", "恶俗", "狗粉丝", "6324", "嗨粉", "带明星"].map
      String.toList,
    ["孙笑川", "笑川", "孙笑", "笑川"].map String.toList),
   (["鸡哥", "鸡你太美", "篮球", "练习生", "两年半", "小黑子", "唱跳rap"].map
      String.toList,
    ["蔡徐坤", "徐坤", "蔡徐", "坤坤"].map String.toList),
   (["珍珠", "理塘", "电子烟", "锐刻", "纯真", "一眼真", "丁真珍珠"].map
      String.toList,
    ["丁真", "珍珠", "理塘"].map String.toList)]

/-- Strategy 4, `MessageHandler._internet_pattern_match`. -/
def internet_pattern_match (text keyword : Str) : Bool :=
  internet_pattern_data.any (fun pd =>
    pd.2.any (fun kw => strContains keyword kw) &&
      pd.1.any (fun p => strContains (pyLower text) (pyLower p)))

/-- The `context_keywords` table of `_contextual_semantic_match`, in
source order. -/
def context_keywords_data : List (List Str) :=
  [["这个人", "这位", "大佬", "老师", "哥", "姐", "兄弟", "朋友", "主播", "up主"].map
      String.toList,
   ["发生", "出现", "看到", "听说", "知道", "了解", "看到", "遇到"].map String.toList,
   ["觉得", "认为", "感觉", "好像", "似乎", "可能", "应该", "确实"].map String.toList]

/-- The ten surname characters tested by `_contextual_semantic_match`. -/
def surname_chars : Str := "孙李张王刘陈杨赵黄周".toList

/-- Strategy 5, `MessageHandler._contextual_semantic_match`: for a short
keyword containing a common surname character, look for a context word in
the text and a name-shaped regex match whose similarity with the keyword
exceeds `0.5`. -/
def contextual_semantic_match (text keyword : Str) : Bool :=
  (decide (keyword.length ≤ 4) && surname_chars.any (fun ch => keyword.contains ch)) &&
    context_keywords_data.any (fun cat =>
      cat.any (fun ck =>
        strContains text ck &&
          (find_cjk_runs text ++ find_upper_lower_runs text).any
            (fun m => PyFloat.lt ⟨1, 2⟩ (calculate_text_similarity (pyLower m) keyword))))

/-- Strategy 6, `MessageHandler._pinyin_similarity_match`.  The method
body refers to the name `difflib`, which is never bound in its scope
(the `import difflib` statements in other methods only create
function-local bindings), so every call raises `NameError`; the method's
own `try`/`except Exception` handler swallows the error and the method
returns `False` unconditionally. -/
def pinyin_similarity_match (_text _keyword : Str) : Bool := false

/-- A message as seen by the matcher: `content` models the value of
`message.get('content', '')`. -/
structure Message where
  content : Str
deriving DecidableEq

/-- `MessageHandler._is_semantically_related`: normalize the text, fail
fast on empty text or variant list, then try the six strategies in
order. -/
def is_semantically_related (msg : Message) (keyword_variants : List Str) : Bool :=
  let text := pyStrip (pyLower msg.content)
  if text.isEmpty || keyword_variants.isEmpty then false
  else
    let original_keyword := pyLower (keyword_variants.headD [])
    direct_containment_strategy text keyword_variants ||
      char_similarity_strategy text keyword_variants ||
      fuzzy_word_match text keyword_variants ||
      internet_pattern_match text original_keyword ||
      contextual_semantic_match text original_keyword ||
      pinyin_similarity_match text original_keyword

/-!
## Keyword expansion `MessageHandler._expand_keyword_variants`
-/

/-- Stable insertion sort: each element of the input is inserted (in
input order) after every accumulated element `y` with `le y x`.  For a
total preorder key this is the unique stable sort, hence a faithful model
of CPython's stable `list.sort` / `sorted`. -/
def insert_stable {α : Type} (le : α → α → Bool) (x : α) : List α → List α
  | [] => [x]
  | y :: ys => if le y x then y :: insert_stable le x ys else x :: y :: ys

/-- Model of Python stable sorting with a boolean "may stay before"
relation `le`. -/
def stable_sort {α : Type} (le : α → α → Bool) (l : List α) : List α :=
  l.foldl (fun acc x => insert_stable le x acc) []

/-- `MessageHandler._generate_char_variants`: doubling and edge
repetition for short keywords, then fixed prefixes and suffixes. -/
def generate_char_variants (keyword : Str) : List Str :=
  (if keyword.length ≤ 4 then
    [keyword ++ keyword] ++
      (if 2 ≤ keyword.length then
        [keyword.take 1 ++ keyword, keyword ++ [keyword.getLastD ' ']]
      else [])
  else []) ++
  (["大", "小", "老", "新", "超级", "真的", "假的"].map
    (fun p => p.toList ++ keyword)) ++
  (["了", "的", "一下", "了", "了", "啊", "呀", "呢"].map
    (fun s => keyword ++ s.toList))

/-- The `internet_patterns` dictionary of `_generate_internet_variants`
(person, related terms), in source order. -/
def internet_person_data : List (Str × List Str) :=
  [("孙笑川".toList,
    ["抽象", "带师", "nm$l", "新津", "恶俗", "狗粉丝", "6324", "嗨粉"].map String.toList),
   ("蔡徐坤".toList,
    ["鸡哥", "鸡你太美", "篮球", "练习生", "两年半", "小黑子"].map String.toList),
   ("丁真".toList,
    ["珍珠", "理塘", "电子烟", "锐刻5", "纯真", "一眼真"].map String.toList),
   ("马保国".toList,
    ["耗子尾汁", "年轻人不讲武德", "传统功夫", "接化发", "闪电五连鞭"].map String.toList),
   ("李赣".toList,
    ["6324", "抽象", "嗨粉", "狗粉丝", "带明星", "带秀"].map String.toList)]

/-- The `abbreviations` dictionary of `_generate_internet_variants`:
abbreviation, full forms, and the `str(full)` rendering that the Python
code tests containment against (`elif keyword in str(full)`). -/
def abbreviation_data : List (Str × List Str × Str) :=
  [("yyds".toList, ["永远的神", "永远滴神"].map String.toList,
    "['永远的神', '永远滴神']".toList),
   ("xswl".toList, ["笑死我了"].map String.toList, "['笑死我了']".toList),
   ("zqsg".toList, ["真情实感"].map String.toList, "['真情实感']".toList),
   ("u1s1".toList, ["有一说一"].map String.toList, "['有一说一']".toList),
   ("dddd".toList, ["懂的都懂"].map String.toList, "['懂的都懂']".toList)]

/-- `MessageHandler._generate_internet_variants`.  (The
`num_replacements` dictionary in the source is defined but never used.) -/
def generate_internet_variants (keyword : Str) : List Str :=
  (internet_person_data.foldl
    (fun acc pr =>
      if strContains pr.1 keyword || strContains keyword pr.1 then acc ++ pr.2 else acc)
    []) ++
  (if keyword.contains '笑' then ["孝", "校", "效", "啸"].map String.toList else []) ++
  (if keyword.contains '川' then ["穿", "传", "船", "喘"].map String.toList else []) ++
  (if keyword.contains '坤' then ["鲲", "昆", "捆", "困"].map String.toList else []) ++
  (abbreviation_data.foldl
    (fun acc ab =>
      if keyword = ab.1 then acc ++ ab.2.1
      else if strContains ab.2.2 keyword then acc ++ [ab.1] else acc)
    [])

/-- `MessageHandler._generate_semantic_variants`: kinship-suffix
expansions for short keywords, then emotion- and action-word
combinations. -/
def generate_semantic_variants (keyword : Str) : List Str :=
  (if keyword.length ≤ 3 then
    (if keyword.getLastD ' ' = '哥' then
      ["哥哥", "大哥", "老哥", "哥儿", "哥子"].map String.toList
     else if keyword.getLastD ' ' = '姐' then
      ["姐姐", "大姐", "老姐", "姐儿"].map String.toList
     else if keyword.getLastD ' ' = '弟' then
      ["弟弟", "小弟", "老弟", "弟儿"].map String.toList
     else if keyword.getLastD ' ' = '妹' then
      ["妹妹", "小妹", "老妹", "妹儿"].map String.toList
     else [])
  else []) ++
  (["喜欢", "讨厌", "爱", "恨", "想", "念", "烦", "愁", "开心", "难过"].foldl
    (fun acc e => acc ++ [e.toList ++ keyword, keyword ++ e.toList]) []) ++
  (["看", "听", "说", "想", "做", "玩", "学", "吃", "喝", "买"].foldl
    (fun acc a => acc ++ [a.toList ++ keyword, keyword ++ a.toList]) [])

/-- The `contexts` dictionary of `_generate_contextual_variants`, in
source order. -/
def context_variant_data : List (List Str) :=
  [["这个人", "这位", "大佬", "老师", "哥", "姐", "兄弟", "朋友"].map String.toList,
   ["在", "去", "到", "从", "来", "回", "路过", "经过"].map String.toList,
   ["今天", "昨天", "明天", "刚才", "刚刚", "现在", "以后", "以前"].map String.toList,
   ["真的", "假的", "太", "很", "超级", "特别", "非常", "有点", "稍微"].map String.toList]

/-- `MessageHandler._generate_contextual_variants`. -/
def generate_contextual_variants (keyword : Str) : List Str :=
  context_variant_data.foldl
    (fun acc cat =>
      cat.foldl (fun acc2 cw => acc2 ++ [cw ++ keyword, keyword ++ cw]) acc)
    []

/-- The `similar_chars` dictionary of `_generate_fuzzy_variants`. -/
def similar_chars_data : List (Char × Char) :=
  [('笑', '孝'), ('川', '穿'), ('孙', '损'), ('坤', '鲲'),
   ('蔡', '菜'), ('徐', '许'), ('丁', '钉'), ('真', '针')]

/-- `MessageHandler._generate_fuzzy_variants`: single deletions,
insertions of common particles at every position, and whole-string
replacement of similar characters, for keywords of length at least 2. -/
def generate_fuzzy_variants (keyword : Str) : List Str :=
  if 2 ≤ keyword.length then
    ((List.range keyword.length).map
      (fun i => keyword.take i ++ keyword.drop (i + 1))) ++
    (("的了子儿啊呀呢吧".toList).foldl
      (fun acc ch =>
        acc ++ (List.range (keyword.length + 1)).map
          (fun i => keyword.take i ++ ch :: keyword.drop i))
      []) ++
    (similar_chars_data.foldl
      (fun acc pr =>
        if keyword.contains pr.1 then
          acc ++ [keyword.map (fun c => if c = pr.1 then pr.2 else c)]
        else acc)
      [])
  else []

/-- All candidate variants of `_expand_keyword_variants`, in the order
the Python code appends them (after the initial `[keyword]`). -/
def all_candidate_variants (keyword : Str) : List Str :=
  generate_char_variants keyword ++ generate_internet_variants keyword ++
    generate_semantic_variants keyword ++ generate_contextual_variants keyword ++
    generate_fuzzy_variants keyword

/-- The deduplication loop of `_expand_keyword_variants`: strip each
candidate, drop empties, the keyword itself, and anything already seen;
keep first occurrences in order. -/
def pyDedupFilter (kw : Str) : List Str → List Str → List Str
  | [], _ => []
  | v :: vs, seen =>
    if pyStrip v ≠ [] ∧ pyStrip v ≠ kw ∧ pyStrip v ∉ seen then
      pyStrip v :: pyDedupFilter kw vs (pyStrip v :: seen)
    else pyDedupFilter kw vs seen

/-- `MessageHandler._expand_keyword_variants`: normalize, generate,
deduplicate with relevance scores, sort stably by descending score
(`reverse=True` keeps the stable order among equal keys), and return the
keyword followed by the top 30 variants. -/
def expand_keyword_variants (keyword0 : Str) : List Str :=
  let keyword := pyStrip (pyLower keyword0)
  if keyword.isEmpty then []
  else
    let unique_variants :=
      (pyDedupFilter keyword (all_candidate_variants keyword) []).map
        (fun v => (v, calculate_relevance_score keyword v))
    let sorted := stable_sort (fun y x => PyFloat.le x.2 y.2) unique_variants
    keyword :: (sorted.take 30).map Prod.fst

/-!
## The debug filter expander (`debug_message_filter.py`)
-/

/-- The fixed `extensions` list of
`DebugMessageFilter._expand_keyword_variants`. -/
def debug_extension_list : List Str :=
  ["错误", "异常", "bug", "故障", "问题", "error", "exception", "崩溃", "出错",
   "怎么办", "怎么解决", "求助", "帮帮我", "救命", "急", "在线等",
   "坏了", "不行了", "出问题了", "崩了", "挂了", "死机了",
   "打不开", "无法启动", "运行不了", "闪退了", "无响应"].map String.toList

/-- The list `[keyword] + extensions` that
`DebugMessageFilter._expand_keyword_variants` builds before
`list(set(...))`. -/
def debug_variant_pool (keyword : Str) : List Str :=
  pyStrip (pyLower keyword) :: debug_extension_list

/-- A valid enumeration of a CPython `set` built from a list: some
duplicate-free list with exactly the same members.  CPython's actual
iteration order depends on string hashes (randomized per process), so
`list(set(xs))` is modelled by an arbitrary such enumeration. -/
def SetEnum (enum : List Str → List Str) : Prop :=
  ∀ l, (enum l).Nodup ∧ ∀ x, x ∈ enum l ↔ x ∈ l

/-- `DebugMessageFilter._expand_keyword_variants`, parametrized by the
set enumeration order: `list(set([keyword] + extensions))`. -/
def debug_expand_keyword_variants (enum : List Str → List Str) (keyword : Str) : List Str :=
  enum (debug_variant_pool keyword)

/-!
## Session segmentation (`TopicAnalyzer._identify_discussion_sessions`)
-/

/-- The `sender` dictionary of a raw group message: `card` / `nickname`
are absent (`none`) or present (possibly empty), `user_id` is an
integer. -/
structure Sender where
  card : Option Str
  nickname : Option Str
  user_id : Int
deriving DecidableEq

/-- One entry of a raw message's `message` list: its `type` and the value
of `content.get("data", {}).get("text", "")`. -/
structure MsgPart where
  ptype : Str
  text : Str
deriving DecidableEq

/-- A raw group message as consumed by the topic analyzer. -/
structure RawMsg where
  sender : Sender
  message : List MsgPart
  time : Int
deriving DecidableEq

/-- `msg["sender"].get("card") or msg["sender"].get("nickname", str(user_id))`:
a present, non-empty `card` wins; otherwise the `nickname` entry if the
key exists (even when empty), else the decimal rendering of `user_id`. -/
def senderName (s : Sender) : Str :=
  let fallback := s.nickname.getD (toString s.user_id).toList
  match s.card with
  | some c => if c.isEmpty then fallback else c
  | none => fallback

/-- The text of a message: `" ".join` of the `text` fields of its parts
of type `"text"`. -/
def fullText (m : RawMsg) : Str :=
  List.intercalate " ".toList
    ((m.message.filter (fun p => p.ptype = "text".toList)).map MsgPart.text)

/-- An entry of a session's `messages` list. -/
structure SessionMsg where
  sender : Str
  content : Str
  time : Int
deriving DecidableEq

/-- Result of `TopicAnalyzer._analyze_session_status`. -/
structure SessionStatus where
  is_completed : Bool
  result_summary : Str
deriving DecidableEq

/-- A finalized session record. -/
structure Session where
  messages : List SessionMsg
  start_time : Int
  end_time : Int
  duration : Int
  message_count : Nat
  status : SessionStatus
deriving DecidableEq

/-- The `completion_keywords` list of `_analyze_session_status`. -/
def completion_keywords : List Str :=
  ["决定", "确定", "搞定", "完成", "结束", "定了", "就这样", "行了"].map String.toList

/-- `TopicAnalyzer._analyze_session_status`: join the session contents,
test for a completion keyword, and extract the first sentence (split on
`。`) containing one. -/
def analyze_session_status (session : List SessionMsg) : SessionStatus :=
  let full_text := List.intercalate " ".toList (session.map SessionMsg.content)
  let is_completed := completion_keywords.any (fun k => strContains full_text k)
  if is_completed then
    match (splitOnChar '。' full_text).find?
        (fun s => completion_keywords.any (fun k => strContains s k)) with
    | some s => ⟨true, if s.isEmpty then "讨论已完成".toList else s⟩
    | none => ⟨true, "讨论已完成".toList⟩
  else ⟨false, "讨论未完成".toList⟩

/-- Turn a raw message into the session entry the analyzer stores. -/
def mkSessionMsg (m : RawMsg) : SessionMsg :=
  ⟨senderName m.sender, fullText m, m.time⟩

/-- The default used to read `current_session[0]` / `current_session[-1]`
(never exercised: finalization is guarded by `len > 1`). -/
def dummySessionMsg : SessionMsg := ⟨[], [], 0⟩

/-- Build the session dictionary appended by
`_identify_discussion_sessions` from a full accumulator. -/
def finalizeSession (cur : List SessionMsg) : Session :=
  { messages := cur
    start_time := (cur.headD dummySessionMsg).time
    end_time := (cur.getLastD dummySessionMsg).time
    duration := (cur.getLastD dummySessionMsg).time - (cur.headD dummySessionMsg).time
    message_count := cur.length
    status := analyze_session_status cur }

/-- One iteration of the accumulation loop of
`_identify_discussion_sessions`: state is `(sessions, current_session)`. -/
def sessionStep (threshold : Int) (st : List Session × List SessionMsg)
    (m : RawMsg) : List Session × List SessionMsg :=
  let sm := mkSessionMsg m
  match st with
  | (sessions, []) => (sessions, [sm])
  | (sessions, cur) =>
    if m.time - (cur.getLastD dummySessionMsg).time ≤ threshold then
      (sessions, cur ++ [sm])
    else if 1 < cur.length then
      (sessions ++ [finalizeSession cur], [sm])
    else (sessions, [sm])

/-- `TopicAnalyzer._identify_discussion_sessions`: sort messages by time
(stable), accumulate runs whose consecutive gaps are at most
`threshold`, emit only accumulators with more than one message, flush the
final accumulator under the same guard, and sort the sessions by start
time. -/
def identify_discussion_sessions (threshold : Int) (messages : List RawMsg) :
    List Session :=
  let sorted := stable_sort (fun y x => decide (y.time ≤ x.time)) messages
  let st := sorted.foldl (sessionStep threshold) ([], [])
  let sessions := if 1 < st.2.length then st.1 ++ [finalizeSession st.2] else st.1
  stable_sort (fun y x => decide (y.start_time ≤ x.start_time)) sessions

/-!
## Key point extraction (`TopicAnalyzer._extract_key_points`)
-/

/-- The filler words excluded from short key points. -/
def filler_words : List Str :=
  ["好", "行", "可以", "嗯", "哦", "哈哈", "谢谢"].map String.toList

/-- The `key_points` candidate list of `_extract_key_points`, in message
order: stripped contents longer than 10 characters (truncated to 50
characters plus `"..."` when longer than 50), and non-empty short
contents that are not filler words. -/
def key_point_candidates (contents : List Str) : List Str :=
  contents.foldl
    (fun acc content0 =>
      let content := pyStrip content0
      if 10 < content.length then
        acc ++ [if 50 < content.length then content.take 50 ++ "...".toList else content]
      else if content ≠ [] ∧ content ∉ filler_words then acc ++ [content]
      else acc)
    []

/-- `TopicAnalyzer._extract_key_points`, parametrized by the `set`
enumeration order: `list(set(key_points))[:5]`. -/
def extract_key_points (enum : List Str → List Str) (contents : List Str) : List Str :=
  (enum (key_point_candidates contents)).take 5

/-!
## Support lemmas
-/

theorem mem_insert_stable {α : Type} (le : α → α → Bool) (x a : α) (l : List α) :
    a ∈ insert_stable le x l ↔ a = x ∨ a ∈ l := by
  induction l with
  | nil => simp [insert_stable]
  | cons y ys ih =>
    rw [insert_stable]
    split
    · simp only [List.mem_cons, ih]
      tauto
    · simp [List.mem_cons]

theorem length_insert_stable {α : Type} (le : α → α → Bool) (x : α) (l : List α) :
    (insert_stable le x l).length = l.length + 1 := by
  induction l with
  | nil => rfl
  | cons y ys ih =>
    rw [insert_stable]
    split
    · simp [ih]
    · simp

theorem perm_insert_stable {α : Type} (le : α → α → Bool) (x : α) (l : List α) :
    (insert_stable le x l).Perm (x :: l) := by
  induction l with
  | nil => exact List.Perm.refl _
  | cons y ys ih =>
    rw [insert_stable]
    split
    · exact (ih.cons y).trans (List.Perm.swap x y ys)
    · exact List.Perm.refl _

theorem perm_stable_sort {α : Type} (le : α → α → Bool) (l : List α) :
    (stable_sort le l).Perm l := by
  suffices h : ∀ acc, ((l.foldl (fun acc x => insert_stable le x acc) acc).Perm
      (l ++ acc)) by
    have h2 := h []
    rw [List.append_nil] at h2
    exact h2
  induction l with
  | nil => intro acc; exact List.Perm.refl _
  | cons y ys ih =>
    intro acc
    simp only [List.foldl_cons, List.cons_append]
    exact (ih (insert_stable le y acc)).trans
      ((List.Perm.append_left ys (perm_insert_stable le y acc)).trans List.perm_middle)

theorem mem_stable_sort {α : Type} (le : α → α → Bool) (l : List α) (a : α) :
    a ∈ stable_sort le l ↔ a ∈ l :=
  (perm_stable_sort le l).mem_iff

theorem length_stable_sort {α : Type} (le : α → α → Bool) (l : List α) :
    (stable_sort le l).length = l.length :=
  (perm_stable_sort le l).length_eq

theorem chain'_insert_stable {α : Type} (le : α → α → Bool)
    (htot : ∀ a b, le a b = true ∨ le b a = true) (x : α) (l : List α)
    (h : List.Chain' (fun a b => le a b = true) l) :
    List.Chain' (fun a b => le a b = true) (insert_stable le x l) := by
  induction l with
  | nil => simp [insert_stable]
  | cons y ys ih =>
    rw [insert_stable]
    split
    · rename_i hyx
      have hch := ih h.tail
      cases ys with
      | nil =>
        simp only [insert_stable]
        exact List.chain'_cons.mpr ⟨hyx, List.chain'_singleton x⟩
      | cons z zs =>
        rw [insert_stable] at hch ⊢
        split at hch
        · rename_i hzx
          rw [if_pos hzx]
          exact List.chain'_cons.mpr ⟨(List.chain'_cons.mp h).1, hch⟩
        · rename_i hzx
          rw [if_neg hzx]
          exact List.chain'_cons.mpr ⟨hyx, hch⟩
    · rename_i hyx
      have hxy : le x y = true := by
        rcases htot x y with h2 | h2
        · exact h2
        · exact absurd h2 (by simpa using hyx)
      exact List.chain'_cons.mpr ⟨hxy, h⟩

theorem chain'_stable_sort {α : Type} (le : α → α → Bool)
    (htot : ∀ a b, le a b = true ∨ le b a = true) (l : List α) :
    List.Chain' (fun a b => le a b = true) (stable_sort le l) := by
  suffices h : ∀ acc, List.Chain' (fun a b => le a b = true) acc →
      List.Chain' (fun a b => le a b = true)
        (l.foldl (fun acc x => insert_stable le x acc) acc) by
    exact h [] List.chain'_nil
  induction l with
  | nil => intro acc hacc; exact hacc
  | cons y ys ih =>
    intro acc hacc
    exact ih (insert_stable le y acc) (chain'_insert_stable le htot y acc hacc)

theorem pyDedupFilter_spec (kw : Str) :
    ∀ (l : List Str) (seen : List Str),
      (pyDedupFilter kw l seen).Nodup ∧
        ∀ x ∈ pyDedupFilter kw l seen,
          x ∉ seen ∧ x ≠ [] ∧ x ≠ kw ∧ ∃ y ∈ l, x = pyStrip y := by
  intro l
  induction l with
  | nil =>
    intro seen
    refine ⟨List.nodup_nil, ?_⟩
    intro x hx
    simp [pyDedupFilter] at hx
  | cons v vs ih =>
    intro seen
    rw [pyDedupFilter]
    split
    · rename_i hcond
      constructor
      · refine List.nodup_cons.mpr ⟨?_, (ih (pyStrip v :: seen)).1⟩
        intro hmem
        exact ((ih (pyStrip v :: seen)).2 _ hmem).1 (List.mem_cons_self _ _)
      · intro x hx
        rcases List.mem_cons.mp hx with h | h
        · subst h
          exact ⟨hcond.2.2, hcond.1, hcond.2.1, v, List.mem_cons_self _ _, rfl⟩
        · obtain ⟨hseen, hne, hnkw, y, hy, hstrip⟩ := (ih (pyStrip v :: seen)).2 _ h
          exact ⟨fun hc => hseen (List.mem_cons_of_mem _ hc), hne, hnkw, y,
            List.mem_cons_of_mem _ hy, hstrip⟩
    · rename_i hcond
      refine ⟨(ih seen).1, ?_⟩
      intro x hx
      obtain ⟨hseen, hne, hnkw, y, hy, hstrip⟩ := (ih seen).2 _ hx
      exact ⟨hseen, hne, hnkw, y, List.mem_cons_of_mem _ hy, hstrip⟩

theorem dedupFirstSeen_aux (l : List Str) :
    ∀ (acc : List Str), acc.Nodup →
      (l.foldl (fun acc x => if x ∈ acc then acc else acc ++ [x]) acc).Nodup ∧
        ∀ x, x ∈ l.foldl (fun acc x => if x ∈ acc then acc else acc ++ [x]) acc ↔
          x ∈ acc ∨ x ∈ l := by
  induction l with
  | nil =>
    intro acc hacc
    refine ⟨hacc, ?_⟩
    intro x
    simp
  | cons y ys ih =>
    intro acc hacc
    simp only [List.foldl_cons]
    split
    · rename_i hy
      obtain ⟨h1, h2⟩ := ih acc hacc
      refine ⟨h1, ?_⟩
      intro x
      rw [h2]
      simp only [List.mem_cons]
      constructor
      · tauto
      · rintro (h | h | h)
        · exact Or.inl h
        · subst h; exact Or.inl hy
        · exact Or.inr h
    · rename_i hy
      have hacc2 : (acc ++ [y]).Nodup := by
        rw [List.nodup_append]
        refine ⟨hacc, List.nodup_singleton y, ?_⟩
        intro a ha hay
        rw [List.mem_singleton] at hay
        subst hay
        exact hy ha
      obtain ⟨h1, h2⟩ := ih (acc ++ [y]) hacc2
      refine ⟨h1, ?_⟩
      intro x
      rw [h2]
      simp only [List.mem_append, List.mem_singleton, List.mem_cons]
      tauto

theorem setEnum_dedupFirstSeen : SetEnum dedupFirstSeen := by
  intro l
  obtain ⟨h1, h2⟩ := dedupFirstSeen_aux l [] List.nodup_nil
  refine ⟨h1, ?_⟩
  intro x
  rw [dedupFirstSeen, h2]
  simp

theorem setEnum_reverse_dedupFirstSeen :
    SetEnum (fun l => (dedupFirstSeen l).reverse) := by
  intro l
  obtain ⟨h1, h2⟩ := setEnum_dedupFirstSeen l
  refine ⟨by simpa using h1, ?_⟩
  intro x
  rw [List.mem_reverse]
  exact h2 x

theorem PyFloat.add_den_pos {x y : PyFloat} (hx : 0 < x.den) (hy : 0 < y.den) :
    0 < (x.add y).den := Nat.mul_pos hx hy

theorem PyFloat.mul_den_pos {x y : PyFloat} (hx : 0 < x.den) (hy : 0 < y.den) :
    0 < (x.mul y).den := Nat.mul_pos hx hy

theorem PyFloat.max_den_pos {x y : PyFloat} (hx : 0 < x.den) (hy : 0 < y.den) :
    0 < (PyFloat.max x y).den := by
  rw [PyFloat.max]
  split
  · exact hy
  · exact hx

theorem PyFloat.min_den_pos {x y : PyFloat} (hx : 0 < x.den) (hy : 0 < y.den) :
    0 < (PyFloat.min x y).den := by
  rw [PyFloat.min]
  split
  · exact hx
  · exact hy

theorem sm_ratio_den_pos (a b : Str) : 0 < (sm_ratio a b).den := by
  rw [sm_ratio]
  split
  · exact Nat.one_pos
  · rename_i h
    simpa using Nat.pos_of_ne_zero h

theorem calculate_text_similarity_den_pos (text keyword : Str) :
    0 < (calculate_text_similarity text keyword).den := by
  rw [calculate_text_similarity]
  split
  · exact Nat.one_pos
  · rename_i hk
    have hfold : ∀ (lst : List Nat) (init : PyFloat), 0 < init.den →
        0 < (lst.foldl
          (fun m i =>
            PyFloat.max m (sm_ratio ((text.drop i).take keyword.length) keyword))
          init).den := by
      intro lst
      induction lst with
      | nil => intro init h; exact h
      | cons i is ih =>
        intro init h
        exact ih _ (PyFloat.max_den_pos h (sm_ratio_den_pos _ _))
    refine PyFloat.max_den_pos (hfold _ _ Nat.one_pos) ?_
    refine PyFloat.mul_den_pos ?_ (by norm_num)
    have : keyword ≠ [] := fun hc => hk (by simp [hc])
    have : keyword.dedup ≠ [] := by
      intro hc
      exact this ((List.dedup_eq_nil _).mp hc)
    simpa using List.length_pos.mpr this

theorem calculate_relevance_score_den_pos (original variant : Str) :
    0 < (calculate_relevance_score original variant).den := by
  rw [calculate_relevance_score]
  split
  · exact Nat.one_pos
  · refine PyFloat.min_den_pos ?_ Nat.one_pos
    refine PyFloat.add_den_pos (PyFloat.add_den_pos
      (PyFloat.mul_den_pos (sm_ratio_den_pos _ _) Nat.one_pos) ?_) ?_
    · split
      · exact Nat.one_pos
      · exact Nat.one_pos
    · split
      · rename_i hov
        refine PyFloat.mul_den_pos ?_ Nat.one_pos
        have hle := List.length_filter_le
          (fun c => decide (c ∈ variant.dedup)) original.dedup
        simp only []
        omega
      · exact Nat.one_pos

theorem sessions_loop_invariant (threshold : Int) :
    ∀ (msgs : List RawMsg) (ss : List Session) (cur : List SessionMsg),
      (∀ s ∈ ss, 2 ≤ s.messages.length ∧ s.message_count = s.messages.length) →
      ∀ s ∈ (msgs.foldl (sessionStep threshold) (ss, cur)).1,
        2 ≤ s.messages.length ∧ s.message_count = s.messages.length := by
  intro msgs
  induction msgs with
  | nil => intro ss cur h; exact h
  | cons m ms ih =>
    intro ss cur h
    simp only [List.foldl_cons]
    cases cur with
    | nil => exact ih ss [mkSessionMsg m] h
    | cons c cs =>
      simp only [sessionStep]
      split
      · exact ih _ _ h
      · rename_i hdiff
        split
        · rename_i hlen
          refine ih _ _ ?_
          intro s hs
          rcases List.mem_append.mp hs with h2 | h2
          · exact h s h2
          · rw [List.mem_singleton] at h2
            subst h2
            exact ⟨hlen, rfl⟩
        · exact ih _ _ h

/-- C2: every session emitted by `_identify_discussion_sessions` holds at
least two messages (singleton accumulators are discarded both on a gap
and at the end of the input), and its `message_count` field equals the
length of its `messages` list. -/
theorem C2_sessions_have_at_least_two_messages (threshold : Int)
    (messages : List RawMsg) (s : Session)
    (hs : s ∈ identify_discussion_sessions threshold messages) :
    2 ≤ s.message_count ∧ s.message_count = s.messages.length := by
  simp only [identify_discussion_sessions] at hs
  rw [mem_stable_sort] at hs
  have hinv := sessions_loop_invariant threshold
    (stable_sort (fun y x => decide (y.time ≤ x.time)) messages) [] []
    (by intro s hs2; simp at hs2)
  split at hs
  · rename_i hlen
    rcases List.mem_append.mp hs with h2 | h2
    · have := hinv s h2
      omega
    · rw [List.mem_singleton] at h2
      subst h2
      exact ⟨hlen, rfl⟩
  · have := hinv s hs
    omega

/-- A raw message with fixed sender and content, used for concrete
segmentation scenarios. -/
def mkRawMsg (t : Int) : RawMsg :=
  ⟨⟨none, some "u".toList, 1⟩, [⟨"text".toList, "hello".toList⟩], t⟩

/-- The five timestamps of the concrete segmentation scenario. -/
def scenario_messages : List RawMsg :=
  [mkRawMsg 0, mkRawMsg 100, mkRawMsg 200, mkRawMsg 3000, mkRawMsg 3100]

theorem identify_pair (th t1 t2 : Int) (h12 : t1 ≤ t2) :
    identify_discussion_sessions th [mkRawMsg t1, mkRawMsg t2] =
      if t2 - t1 ≤ th then
        [finalizeSession [mkSessionMsg (mkRawMsg t1), mkSessionMsg (mkRawMsg t2)]]
      else [] := by
  have hsort : stable_sort (fun y x => decide (y.time ≤ x.time))
      [mkRawMsg t1, mkRawMsg t2] = [mkRawMsg t1, mkRawMsg t2] := by
    simp [stable_sort, insert_stable, mkRawMsg, h12]
  simp only [identify_discussion_sessions, hsort, List.foldl_cons, List.foldl_nil]
  by_cases hc : t2 - t1 ≤ th
  · simp [sessionStep, mkRawMsg, mkSessionMsg, hc, stable_sort, insert_stable,
      dummySessionMsg]
  · simp [sessionStep, mkRawMsg, mkSessionMsg, hc, stable_sort, insert_stable,
      dummySessionMsg]

/-- C3: the segmentation gap test is inclusive — two messages exactly
`gap_threshold` apart share a session while `gap_threshold + 1` apart
they are split (and, being singletons, discarded); and the concrete
scenario `[0, 100, 200, 3000, 3100]` with threshold `1800` yields
exactly the two sessions `{0, 100, 200}` and `{3000, 3100}`. -/
theorem C3_gap_test_inclusive (t : Int) (g : Nat) :
    (identify_discussion_sessions (g : Int) [mkRawMsg t, mkRawMsg (t + g)]).map
        (fun s => s.messages.map SessionMsg.time) = [[t, t + (g : Int)]] ∧
      identify_discussion_sessions (g : Int) [mkRawMsg t, mkRawMsg (t + g + 1)] = [] ∧
      (identify_discussion_sessions 1800 scenario_messages).map
          (fun s => s.messages.map SessionMsg.time) =
        [[0, 100, 200], [3000, 3100]] := by
  refine ⟨?_, ?_, by decide⟩
  · rw [identify_pair (g : Int) t (t + g) (by omega), if_pos (by omega)]
    simp [finalizeSession, mkSessionMsg, mkRawMsg]
  · rw [identify_pair (g : Int) t (t + g + 1) (by omega), if_neg (by omega)]

/-- Witness for C2: the first session of the concrete scenario. -/
theorem C2_witness :
    ((identify_discussion_sessions 1800 scenario_messages).headD
        (finalizeSession []) ∈ identify_discussion_sessions 1800 scenario_messages) ∧
      2 ≤ ((identify_discussion_sessions 1800 scenario_messages).headD
          (finalizeSession [])).message_count ∧
      ((identify_discussion_sessions 1800 scenario_messages).headD
          (finalizeSession [])).message_count =
        ((identify_discussion_sessions 1800 scenario_messages).headD
          (finalizeSession [])).messages.length :=
  ⟨by decide,
   C2_sessions_have_at_least_two_messages 1800 scenario_messages _ (by decide)⟩

/-- Counterexample for C1: for text `"ab"` and variant `"ac"` the
similarity is exactly `0.5`, yet the character-similarity strategy does
not match — the code's threshold is `0.6`, not the claimed `0.5`. -/
theorem C1_counterexample :
    (calculate_text_similarity "ab".toList "ac".toList).toRat = 1 / 2 ∧
      char_similarity_strategy "ab".toList ["ac".toList] = false := by
  constructor
  · have h : calculate_text_similarity "ab".toList "ac".toList = ⟨2, 4⟩ := by decide
    rw [h, PyFloat.toRat]
    norm_num
  · decide

/-- C1 (amended): the character-similarity strategy of
`_is_semantically_related` matches exactly when some variant reaches
similarity `0.6` (`similarity_threshold = 0.6` in the code); a ratio
below `0.6` never by itself causes a match. -/
theorem C1_char_similarity_threshold (text : Str) (variants : List Str) :
    char_similarity_strategy text variants = true ↔
      ∃ v ∈ variants, (3 : ℚ) / 5 ≤ (calculate_text_similarity text v).toRat := by
  rw [char_similarity_strategy, List.any_eq_true]
  constructor
  · rintro ⟨v, hv, hle⟩
    refine ⟨v, hv, ?_⟩
    have h2 := (PyFloat.le_iff_toRat (x := ⟨3, 5⟩) (by norm_num)
      (calculate_text_similarity_den_pos text v)).mp hle
    rw [PyFloat.toRat] at h2
    have h3 : ((3 : Nat) : ℚ) / ((5 : Nat) : ℚ) = (3 : ℚ) / 5 := by norm_num
    rw [h3] at h2
    exact h2
  · rintro ⟨v, hv, hle⟩
    refine ⟨v, hv, ?_⟩
    refine (PyFloat.le_iff_toRat (x := ⟨3, 5⟩) (by norm_num)
      (calculate_text_similarity_den_pos text v)).mpr ?_
    rw [PyFloat.toRat]
    have h3 : ((3 : Nat) : ℚ) / ((5 : Nat) : ℚ) = (3 : ℚ) / 5 := by norm_num
    rw [h3]
    exact hle

/-- C8: the matcher returns `false` directly when the normalized message
text is empty or the variant list is empty; in the embedding all
strategies are total functions, the only genuinely throwing strategy
(`_pinyin_similarity_match`, whose body raises `NameError`) being caught
by its own handler and modelled as a constant non-match. -/
theorem C8_degenerate_input_returns_false (msg : Message) (variants : List Str) :
    (pyStrip (pyLower msg.content) = [] → is_semantically_related msg variants = false) ∧
      is_semantically_related msg [] = false := by
  constructor
  · intro h
    rw [is_semantically_related]
    simp [h]
  · rw [is_semantically_related]
    simp

/-- Witness for C8: a whitespace-only message is never relevant, and an
empty variant list never matches. -/
theorem C8_witness :
    (pyStrip (pyLower (Message.mk " ".toList).content) = [] ∧
        is_semantically_related ⟨" ".toList⟩ ["报错".toList] = false) ∧
      is_semantically_related ⟨"abc".toList⟩ [] = false :=
  ⟨⟨by decide,
    (C8_degenerate_input_returns_false ⟨" ".toList⟩ ["报错".toList]).1 (by decide)⟩,
   (C8_degenerate_input_returns_false ⟨"abc".toList⟩ []).2⟩

/-- Counterexample for C9: the text `"抽象"` is relevant for the variant
list `["孙笑川"]` (through the internet-pattern strategy, which uses
`keyword_variants[0]`), but irrelevant for the superset list
`["x", "孙笑川"]`, whose first element is `"x"`. -/
theorem C9_counterexample :
    (∀ v ∈ (["孙笑川".toList] : List Str), v ∈ (["x".toList, "孙笑川".toList] : List Str)) ∧
      is_semantically_related ⟨"抽象".toList⟩ ["孙笑川".toList] = true ∧
      is_semantically_related ⟨"抽象".toList⟩ ["x".toList, "孙笑川".toList] = false :=
  ⟨by decide, by decide, by decide⟩

theorem headD_append_left {α : Type} (V W : List α) (h : V ≠ []) (d : α) :
    (V ++ W).headD d = V.headD d := by
  cases V with
  | nil => exact absurd rfl h
  | cons v vs => simp

theorem direct_containment_strategy_append (text : Str) (V W : List Str) :
    direct_containment_strategy text (V ++ W) =
      (direct_containment_strategy text V || direct_containment_strategy text W) := by
  simp [direct_containment_strategy, List.any_append]

theorem char_similarity_strategy_append (text : Str) (V W : List Str) :
    char_similarity_strategy text (V ++ W) =
      (char_similarity_strategy text V || char_similarity_strategy text W) := by
  simp [char_similarity_strategy, List.any_append]

theorem fuzzy_word_match_append (text : Str) (V W : List Str) :
    fuzzy_word_match text (V ++ W) =
      (fuzzy_word_match text V || fuzzy_word_match text W) := by
  simp [fuzzy_word_match, List.any_append]

/-- C9 (amended): the matcher is monotone under extensions that preserve
the first variant — appending further variants keeps any match.  (Full
superset monotonicity fails because strategies 4-6 depend on
`keyword_variants[0]`.) -/
theorem C9_monotone_under_append (msg : Message) (V W : List Str)
    (h : is_semantically_related msg V = true) :
    is_semantically_related msg (V ++ W) = true := by
  rw [is_semantically_related] at h ⊢
  by_cases hcond : ((pyStrip (pyLower msg.content)).isEmpty || V.isEmpty) = true
  · rw [if_pos hcond] at h
    exact absurd h (by simp)
  · rw [if_neg hcond] at h
    simp only [Bool.or_eq_true, not_or] at hcond
    have hV : V ≠ [] := by
      intro hc
      subst hc
      exact hcond.2 rfl
    have hVW : ¬(((pyStrip (pyLower msg.content)).isEmpty || (V ++ W).isEmpty) = true) := by
      simp only [Bool.or_eq_true, not_or]
      refine ⟨hcond.1, ?_⟩
      simp only [List.isEmpty_eq_true, List.append_eq_nil]
      intro hc
      exact hV hc.1
    rw [if_neg hVW]
    rw [headD_append_left V W hV, direct_containment_strategy_append,
      char_similarity_strategy_append, fuzzy_word_match_append]
    simp only [Bool.or_eq_true] at h ⊢
    tauto

/-- Witness for C9 (amended): appending a variant preserves the match of
`"抽象"` against `["孙笑川"]`. -/
theorem C9_witness :
    is_semantically_related ⟨"抽象".toList⟩ ["孙笑川".toList] = true ∧
      is_semantically_related ⟨"抽象".toList⟩ (["孙笑川".toList] ++ ["理塘".toList]) = true :=
  ⟨by decide,
   C9_monotone_under_append ⟨"抽象".toList⟩ ["孙笑川".toList] ["理塘".toList] (by decide)⟩

/-- Shape of every key-point candidate: it comes from a stripped content,
either truncated when longer than 10 (with ellipsis beyond 50), or taken
verbatim when short, non-empty and not a filler word. -/
def KeyPointShape (contents : List Str) (x : Str) : Prop :=
  ∃ c0 ∈ contents,
    (10 < (pyStrip c0).length ∧
      x = (if 50 < (pyStrip c0).length then (pyStrip c0).take 50 ++ "...".toList
           else pyStrip c0)) ∨
    ((pyStrip c0).length ≤ 10 ∧ pyStrip c0 ≠ [] ∧ pyStrip c0 ∉ filler_words ∧
      x = pyStrip c0)

theorem key_point_candidates_aux :
    ∀ (l : List Str) (acc : List Str),
      ∀ x ∈ l.foldl
        (fun acc content0 =>
          let content := pyStrip content0
          if 10 < content.length then
            acc ++ [if 50 < content.length then content.take 50 ++ "...".toList
                    else content]
          else if content ≠ [] ∧ content ∉ filler_words then acc ++ [content]
          else acc)
        acc,
      x ∈ acc ∨ KeyPointShape l x := by
  intro l
  induction l with
  | nil =>
    intro acc x hx
    exact Or.inl hx
  | cons c rest ih =>
    intro acc x hx
    rw [List.foldl_cons] at hx
    have hstep := ih _ x hx
    have hext : ∀ z, KeyPointShape rest z → KeyPointShape (c :: rest) z := by
      rintro z ⟨c0, hc0, hz⟩
      exact ⟨c0, List.mem_cons_of_mem _ hc0, hz⟩
    rcases hstep with hin | hshape
    · simp only [] at hin
      split at hin
      · rename_i hlong
        rcases List.mem_append.mp hin with h2 | h2
        · exact Or.inl h2
        · rw [List.mem_singleton] at h2
          exact Or.inr ⟨c, List.mem_cons_self _ _, Or.inl ⟨hlong, h2⟩⟩
      · split at hin
        · rename_i hlong hshort
          rcases List.mem_append.mp hin with h2 | h2
          · exact Or.inl h2
          · rw [List.mem_singleton] at h2
            exact Or.inr ⟨c, List.mem_cons_self _ _,
              Or.inr ⟨by omega, hshort.1, hshort.2, h2⟩⟩
        · exact Or.inl hin
    · exact Or.inr (hext x hshape)

theorem key_point_candidates_mem (contents : List Str) :
    ∀ x ∈ key_point_candidates contents, KeyPointShape contents x := by
  intro x hx
  rcases key_point_candidates_aux contents [] x hx with h | h
  · simp at h
  · exact h

/-- Counterexample for C4: `_extract_key_points` deduplicates with
`list(set(...))`, whose iteration order is unspecified; under a valid set
enumeration (here: reversed first-seen order) the output does not
preserve first-seen order on two long distinct contents. -/
theorem C4_counterexample :
    SetEnum (fun l => (dedupFirstSeen l).reverse) ∧
      extract_key_points (fun l => (dedupFirstSeen l).reverse)
          ["0123456789ab".toList, "0123456789ac".toList] ≠
        (dedupFirstSeen (key_point_candidates
          ["0123456789ab".toList, "0123456789ac".toList])).take 5 :=
  ⟨setEnum_reverse_dedupFirstSeen, by decide⟩

/-- C4 (amended): for every valid `set` enumeration order, key-point
extraction returns at most 5 pairwise-distinct excerpts, each being a
candidate of the documented shape; the order (and, beyond five distinct
candidates, the selection) depends on the unspecified set iteration
order rather than on first occurrence. -/
theorem C4_extract_key_points_bounded (enum : List Str → List Str)
    (henum : SetEnum enum) (contents : List Str) :
    (extract_key_points enum contents).length ≤ 5 ∧
      (extract_key_points enum contents).Nodup ∧
      ∀ x ∈ extract_key_points enum contents, KeyPointShape contents x := by
  obtain ⟨hnd, hmem⟩ := henum (key_point_candidates contents)
  refine ⟨?_, ?_, ?_⟩
  · exact List.length_take_le 5 _
  · exact List.Nodup.sublist (List.take_sublist 5 _) hnd
  · intro x hx
    exact key_point_candidates_mem contents x
      ((hmem x).mp (List.take_subset 5 _ hx))

/-- Witness for C4 (amended), with the first-seen enumeration and a
concrete content list. -/
theorem C4_witness :
    SetEnum dedupFirstSeen ∧
      ((extract_key_points dedupFirstSeen
          ["0123456789ab".toList, "好".toList, "你好呀朋友".toList]).length ≤ 5 ∧
        (extract_key_points dedupFirstSeen
          ["0123456789ab".toList, "好".toList, "你好呀朋友".toList]).Nodup ∧
        ∀ x ∈ extract_key_points dedupFirstSeen
          ["0123456789ab".toList, "好".toList, "你好呀朋友".toList],
          KeyPointShape ["0123456789ab".toList, "好".toList, "你好呀朋友".toList] x) :=
  ⟨setEnum_dedupFirstSeen,
   C4_extract_key_points_bounded dedupFirstSeen setEnum_dedupFirstSeen
     ["0123456789ab".toList, "好".toList, "你好呀朋友".toList]⟩

theorem mem_expand_keyword_variants {x k : Str}
    (h : x ∈ expand_keyword_variants k) :
    x = pyStrip (pyLower k) ∨
      ∃ y ∈ all_candidate_variants (pyStrip (pyLower k)), x = pyStrip y := by
  simp only [expand_keyword_variants] at h
  split at h
  · simp at h
  · rcases List.mem_cons.mp h with h2 | h2
    · exact Or.inl h2
    · obtain ⟨p, hp, hx⟩ := List.mem_map.mp h2
      have hp2 : p ∈ stable_sort
          (fun y x => PyFloat.le x.2 y.2)
          ((pyDedupFilter (pyStrip (pyLower k))
            (all_candidate_variants (pyStrip (pyLower k))) []).map
            (fun v => (v, calculate_relevance_score (pyStrip (pyLower k)) v))) :=
        List.take_subset 30 _ hp
      rw [mem_stable_sort] at hp2
      obtain ⟨v, hv, hpv⟩ := List.mem_map.mp hp2
      obtain ⟨_, _, _, y, hy, hvy⟩ :=
        (pyDedupFilter_spec (pyStrip (pyLower k)) _ []).2 v hv
      subst hx
      rw [← hpv]
      exact Or.inr ⟨y, hy, hvy⟩

set_option maxRecDepth 400000 in
/-- Counterexample for C5: the production expander
(`MessageHandler._expand_keyword_variants`) never produces the variant
`"错误"` for the seed `"报错"` — none of its five generators consults a
technical-error synonym table. -/
theorem C5_counterexample : "错误".toList ∉ expand_keyword_variants "报错".toList := by
  intro h
  rcases mem_expand_keyword_variants h with h1 | ⟨y, hy, h2⟩
  · exact absurd h1 (by decide)
  · have hm : "错误".toList ∈
        (all_candidate_variants (pyStrip (pyLower "报错".toList))).map pyStrip :=
      List.mem_map.mpr ⟨y, hy, h2.symm⟩
    exact absurd hm (by decide)

/-- C5 (amended): the repository's table-based expander is the one in
`debug_message_filter.py`; for the seed `"报错"` its result — an
enumeration of `set([keyword] + extensions)` — always contains the
normalized seed and the literal variants `"错误"`, `"异常"`, `"bug"`,
and `"崩溃"` (which sit in its fixed, keyword-independent extension
list). -/
theorem C5_debug_expander_contains_variants (enum : List Str → List Str)
    (henum : SetEnum enum) :
    "报错".toList ∈ debug_expand_keyword_variants enum "报错".toList ∧
      "错误".toList ∈ debug_expand_keyword_variants enum "报错".toList ∧
      "异常".toList ∈ debug_expand_keyword_variants enum "报错".toList ∧
      "bug".toList ∈ debug_expand_keyword_variants enum "报错".toList ∧
      "崩溃".toList ∈ debug_expand_keyword_variants enum "报错".toList := by
  obtain ⟨_, hmem⟩ := henum (debug_variant_pool "报错".toList)
  exact ⟨(hmem _).mpr (by decide), (hmem _).mpr (by decide), (hmem _).mpr (by decide),
    (hmem _).mpr (by decide), (hmem _).mpr (by decide)⟩

/-- Witness for C5 (amended), with the first-seen enumeration. -/
theorem C5_witness :
    SetEnum dedupFirstSeen ∧
      ("报错".toList ∈ debug_expand_keyword_variants dedupFirstSeen "报错".toList ∧
        "错误".toList ∈ debug_expand_keyword_variants dedupFirstSeen "报错".toList ∧
        "异常".toList ∈ debug_expand_keyword_variants dedupFirstSeen "报错".toList ∧
        "bug".toList ∈ debug_expand_keyword_variants dedupFirstSeen "报错".toList ∧
        "崩溃".toList ∈ debug_expand_keyword_variants dedupFirstSeen "报错".toList) :=
  ⟨setEnum_dedupFirstSeen,
   C5_debug_expander_contains_variants dedupFirstSeen setEnum_dedupFirstSeen⟩

/-- C6: keyword expansion returns `[]` when the keyword normalizes to
the empty string; otherwise the normalized keyword is the first element
of the result, and the result is always duplicate-free. -/
theorem C6_expansion_head_and_nodup (k : Str) :
    (pyStrip (pyLower k) = [] → expand_keyword_variants k = []) ∧
      (pyStrip (pyLower k) ≠ [] →
        (expand_keyword_variants k).head? = some (pyStrip (pyLower k))) ∧
      (expand_keyword_variants k).Nodup := by
  simp only [expand_keyword_variants]
  split
  · rename_i hk
    rw [List.isEmpty_eq_true] at hk
    exact ⟨fun _ => rfl, fun h => absurd hk h, List.nodup_nil⟩
  · rename_i hk
    rw [List.isEmpty_eq_true] at hk
    set kw := pyStrip (pyLower k) with hkw
    set d := pyDedupFilter kw (all_candidate_variants kw) [] with hd0
    set uv := d.map (fun v => (v, calculate_relevance_score kw v)) with huv
    set sorted := stable_sort (fun y x => PyFloat.le x.2 y.2) uv with hsorted
    have hd := pyDedupFilter_spec kw (all_candidate_variants kw) []
    have hfst : uv.map Prod.fst = d := by
      rw [huv, List.map_map]
      exact List.map_id' _
    have hperm : (sorted.map Prod.fst).Perm d := by
      have h1 := (perm_stable_sort (fun y x => PyFloat.le x.2 y.2) uv).map Prod.fst
      rw [hfst] at h1
      exact h1
    refine ⟨fun h => absurd h hk, fun _ => rfl, ?_⟩
    rw [List.nodup_cons]
    constructor
    · intro hmem
      rw [List.map_take] at hmem
      have hx := hperm.mem_iff.mp (List.take_subset 30 _ hmem)
      exact (hd.2 _ hx).2.2.1 rfl
    · rw [List.map_take]
      refine List.Nodup.sublist (List.take_sublist 30 _) ?_
      exact hperm.nodup_iff.mpr hd.1

/-- Witness for C6: a keyword normalizing to empty yields `[]`, and a
mixed-case keyword with trailing whitespace heads its own expansion. -/
theorem C6_witness :
    (pyStrip (pyLower " ".toList) = [] ∧ expand_keyword_variants " ".toList = []) ∧
      (pyStrip (pyLower "Ab ".toList) ≠ [] ∧
        (expand_keyword_variants "Ab ".toList).head? =
          some (pyStrip (pyLower "Ab ".toList))) :=
  ⟨⟨by decide, (C6_expansion_head_and_nodup " ".toList).1 (by decide)⟩,
   ⟨by decide, (C6_expansion_head_and_nodup "Ab ".toList).2.1 (by decide)⟩⟩

theorem chain'_imp_mem {α : Type} {R S : α → α → Prop} :
    ∀ {l : List α}, (∀ a ∈ l, ∀ b ∈ l, R a b → S a b) → List.Chain' R l →
      List.Chain' S l := by
  intro l
  induction l with
  | nil => intro _ _; exact List.chain'_nil
  | cons x xs ih =>
    intro h hch
    cases xs with
    | nil => exact List.chain'_singleton x
    | cons y ys =>
      rw [List.chain'_cons] at hch ⊢
      refine ⟨h x (by simp) y (by simp) hch.1, ?_⟩
      exact ih (fun a ha b hb =>
        h a (List.mem_cons_of_mem _ ha) b (List.mem_cons_of_mem _ hb)) hch.2

theorem expand_keyword_variants_length_le (k : Str) :
    (expand_keyword_variants k).length ≤ 31 := by
  simp only [expand_keyword_variants]
  split
  · simp
  · simp only [List.length_cons, List.length_map]
    have := List.length_take_le 30 (stable_sort (fun y x => PyFloat.le x.2 y.2)
      ((pyDedupFilter (pyStrip (pyLower k))
        (all_candidate_variants (pyStrip (pyLower k))) []).map
        (fun v => (v, calculate_relevance_score (pyStrip (pyLower k)) v))))
    omega

set_option maxRecDepth 400000 in
/-- Counterexample for C7: expanding `"报错"` yields 31 entries (the
keyword plus 30 variants), exceeding every cap in the claimed range
15-30. -/
theorem C7_counterexample : 30 < (expand_keyword_variants "报错".toList).length := by
  have h30 : 30 ≤ (pyDedupFilter (pyStrip (pyLower "报错".toList))
      (all_candidate_variants (pyStrip (pyLower "报错".toList))) []).length := by
    decide
  simp only [expand_keyword_variants]
  rw [if_neg (by decide)]
  rw [List.length_cons, List.length_map, List.length_take, length_stable_sort,
    List.length_map]
  omega

set_option maxHeartbeats 1600000 in
/-- C7 (amended): the expanded list has at most 31 entries — the
normalized keyword followed by the 30 retained variants — and after the
leading keyword the variants are ordered by non-increasing relevance
score against that keyword (ties keep first-generated order, the code's
stable `sort(..., reverse=True)`). -/
theorem C7_expansion_cap_and_descending (k : Str) :
    (expand_keyword_variants k).length ≤ 31 ∧
      List.Chain'
        (fun v w => (calculate_relevance_score (pyStrip (pyLower k)) w).toRat ≤
          (calculate_relevance_score (pyStrip (pyLower k)) v).toRat)
        (expand_keyword_variants k).tail := by
  refine ⟨expand_keyword_variants_length_le k, ?_⟩
  simp only [expand_keyword_variants]
  split
  · simp
  · rw [List.tail_cons]
    set kw := pyStrip (pyLower k) with hkw
    set d := pyDedupFilter kw (all_candidate_variants kw) [] with hd0
    set uv := d.map (fun v => (v, calculate_relevance_score kw v)) with huv
    set sorted := stable_sort (fun y x => PyFloat.le x.2 y.2) uv with hsorted
    have htot : ∀ a b : Str × PyFloat,
        (fun y x => PyFloat.le x.2 y.2) a b = true ∨
          (fun y x => PyFloat.le x.2 y.2) b a = true := by
      intro a b
      simp only [PyFloat.le, decide_eq_true_eq]
      exact (Nat.le_total (b.2.num * a.2.den) (a.2.num * b.2.den)).imp id id
    have hch := chain'_stable_sort (fun y x => PyFloat.le x.2 y.2) htot uv
    rw [← hsorted] at hch
    have htake := hch.take 30
    have hsnd : ∀ p ∈ sorted.take 30, p.2 = calculate_relevance_score kw p.1 := by
      intro p hp
      have hp2 := (mem_stable_sort _ uv p).mp (List.take_subset 30 _ hp)
      obtain ⟨v, hv, hpv⟩ := List.mem_map.mp hp2
      rw [← hpv]
    rw [List.chain'_map]
    refine chain'_imp_mem ?_ htake
    intro a ha b hb hR
    have hda : 0 < a.2.den := by
      rw [hsnd a ha]
      exact calculate_relevance_score_den_pos _ _
    have hdb : 0 < b.2.den := by
      rw [hsnd b hb]
      exact calculate_relevance_score_den_pos _ _
    rw [← hsnd a ha, ← hsnd b hb]
    exact (PyFloat.le_iff_toRat hdb hda).mp hR
